import Mathlib

/-!
Shallow embedding of `src/elflink.c` (libhugetlbfs ELF segment remapping),
in the 64-bit (LP64) structure-layout variant selected by `__LP64__`.

Pointers and `unsigned long` values are modelled as `Nat` addresses; memory
reached through a pointer is modelled by explicit environment functions
(`ElfEnv`).  Fallible C functions returning `-1`/`0` become `Option`/`Int`
results.  Effectful functions (the orchestrator, the remap engine, the
shared-file protocol) are modelled as pure functions that also return the
list of externally visible events they perform, in program order.
-/

/-- ELF program-header type `PT_LOAD` (standard ELF value). -/
def PT_LOAD : Nat := 1

/-- ELF program-header type `PT_DYNAMIC` (standard ELF value). -/
def PT_DYNAMIC : Nat := 2

/-- Dynamic-section tag `DT_NULL` (standard ELF value). -/
def DT_NULL : Nat := 0

/-- Dynamic-section tag `DT_STRTAB` (standard ELF value). -/
def DT_STRTAB : Nat := 5

/-- Dynamic-section tag `DT_SYMTAB` (standard ELF value). -/
def DT_SYMTAB : Nat := 6

/-- Symbol binding `STB_GLOBAL` (standard ELF value). -/
def STB_GLOBAL : Nat := 1

/-- Symbol binding `STB_WEAK` (standard ELF value). -/
def STB_WEAK : Nat := 2

/-- Symbol type `STT_OBJECT` (standard ELF value). -/
def STT_OBJECT : Nat := 1

/-- Segment flag `PF_X` (standard ELF value). -/
def PF_X : Nat := 1

/-- Segment flag `PF_W` (standard ELF value). -/
def PF_W : Nat := 2

/-- Segment flag `PF_R` (standard ELF value). -/
def PF_R : Nat := 4

/-- Modelled from the spec: `PF_LINUX_HUGETLB`, the processor-specific
program-header flag bit marking a segment for huge-page promotion, is defined
in `hugetlbfs.h`, which is not under `src/`.  Its exact value is irrelevant
to the claims; the upstream header uses `0x100000`. -/
def PF_LINUX_HUGETLB : Nat := 0x100000

/-- Linux `PROT_READ`. -/
def PROT_READ : Nat := 1

/-- Linux `PROT_WRITE`. -/
def PROT_WRITE : Nat := 2

/-- Linux `PROT_EXEC`. -/
def PROT_EXEC : Nat := 4

/-- Linux `SIGABRT`. -/
def SIGABRT : Nat := 6

/-- Linux `EEXIST`. -/
def EEXIST : Nat := 17

/-- Linux `ENOENT`. -/
def ENOENT : Nat := 2

/-- POSIX `S_IWGRP` (octal 020). -/
def S_IWGRP : Nat := 16

/-- POSIX `S_IWOTH` (octal 002). -/
def S_IWOTH : Nat := 2

/-- `sizeof(Elf64_Sym)` in bytes, used by `find_numsyms`. -/
def SIZEOF_ELF_SYM : Nat := 24

/-- `MAX_HTLB_SEGS` from `src/elflink.c`. -/
def MAX_HTLB_SEGS : Nat := 2

/-- Modulus of C `unsigned long` arithmetic in the LP64 model. -/
def UINT64_LIMIT : Nat := 18446744073709551616

/-- C `unsigned long` subtraction (wraps modulo `2^64`). -/
def wsub (a b : Nat) : Nat := (a % UINT64_LIMIT + (UINT64_LIMIT - b % UINT64_LIMIT)) % UINT64_LIMIT

/-- Modelled from the spec: the `ALIGN` macro comes from
`libhugetlbfs_internal.h`, which is not under `src/`; the spec calls it
`align_up`: round `x` up to the next multiple of `a`. -/
def align_up (x a : Nat) : Nat := ((x + a - 1) / a) * a

/-- `ELF64_ST_BIND`: high four bits of `st_info`. -/
def ELF_ST_BIND (x : Nat) : Nat := x >>> 4

/-- `ELF64_ST_TYPE`: low four bits of `st_info`. -/
def ELF_ST_TYPE (x : Nat) : Nat := x &&& 0xf

/-- One ELF program header (`Elf64_Phdr`), restricted to the fields
`src/elflink.c` reads. -/
structure Phdr where
  p_type : Nat
  p_flags : Nat
  p_vaddr : Nat
  p_filesz : Nat
  p_memsz : Nat
deriving DecidableEq

/-- One dynamic-section entry (`Elf64_Dyn`): tag and pointer value. -/
structure DynEntry where
  d_tag : Nat
  d_ptr : Nat
deriving DecidableEq

/-- One dynamic-symbol entry (`Elf64_Sym`), restricted to the fields
`src/elflink.c` reads. -/
structure ElfSym where
  st_value : Nat
  st_size : Nat
  st_info : Nat
deriving DecidableEq

/-- `struct seg_info` from `src/elflink.c`.  `extra_vaddr = none` models the
`NULL` pointer ("no copy window"). -/
structure SegInfo where
  vaddr : Nat
  filesz : Nat
  memsz : Nat
  extra_vaddr : Option Nat
  extrasz : Nat
  prot : Nat
  fd : Int
  index : Nat
deriving DecidableEq

/-- Memory environment for the scanner: what the process's address space
holds at the locations the C code dereferences.
`oobPhdr i` is the memory that an access `phdr[i]` would read when `i` is
outside the program-header table (the C code can perform such a read);
`dynAt a` is the run of dynamic-section entries in memory starting at
address `a`, up to and including the region's `DT_NULL` terminator;
`symAt base k` is the symbol stored at address `base + k * sizeof(Elf_Sym)`;
`libhuge_filesz` is the address of the weak sentinel symbol
`__libhuge_filesz`. -/
structure ElfEnv where
  oobPhdr : Nat → Phdr
  dynAt : Nat → List DynEntry
  symAt : Nat → Nat → ElfSym
  libhuge_filesz : Nat

/-- Access `phdr[i]`: within the table it is the table entry, beyond it the
surrounding memory `oobPhdr`. -/
def phAt (phdrs : List Phdr) (oob : Nat → Phdr) (i : Nat) : Phdr :=
  phdrs.getD i (oob i)

/-- Loop of `find_dynamic`: starting at `i`, advance while
`phdr[i].p_type != PT_DYNAMIC && i < phnum`; returns the exit index.  The C
loop body only increments `i`, and it increments only while `i < phnum`, so
starting from `i = 1` a fuel of `phnum` always suffices. -/
def fdLoop (pt : Nat → Nat) (phnum : Nat) : Nat → Nat → Nat
  | i, 0 => i
  | i, fuel+1 => if pt i ≠ PT_DYNAMIC ∧ i < phnum then fdLoop pt phnum (i+1) fuel else i

/-- Indices `i` at which the loop of `find_dynamic` evaluates
`phdr[i].p_type`.  The C condition `(phdr[i].p_type != PT_DYNAMIC) && (i < phnum)`
reads `phdr[i]` before testing the bound, so every iteration contributes its
index, including the final one at which the bound test fails. -/
def fdReadsLoop (pt : Nat → Nat) (phnum : Nat) : Nat → Nat → List Nat
  | _, 0 => []
  | i, fuel+1 =>
    i :: (if pt i ≠ PT_DYNAMIC ∧ i < phnum then fdReadsLoop pt phnum (i+1) fuel else [])

/-- `find_dynamic` from `src/elflink.c`: scan `phdr[1..]` for a `PT_DYNAMIC`
entry; on success return its `p_vaddr` (the address of the dynamic table),
else `none` (C returns `-1`).  Note the C scan starts at index 1 and its
post-loop test re-reads `phdr[i]` at the exit index. -/
def find_dynamic (phdrs : List Phdr) (oob : Nat → Phdr) : Option Nat :=
  let pt := fun i => (phAt phdrs oob i).p_type
  let n := phdrs.length
  let i := fdLoop pt n 1 n
  if (phAt phdrs oob i).p_type = PT_DYNAMIC then some (phAt phdrs oob i).p_vaddr else none

/-- Every program-header index whose `p_type` field `find_dynamic` reads:
all loop-condition reads plus the post-loop re-read at the exit index. -/
def find_dynamic_reads (phdrs : List Phdr) (oob : Nat → Phdr) : List Nat :=
  let pt := fun i => (phAt phdrs oob i).p_type
  let n := phdrs.length
  fdReadsLoop pt n 1 n ++ [fdLoop pt n 1 n]

/-- Loop of `find_tables` over the dynamic entries: stop at `DT_NULL`,
record the last `DT_SYMTAB` and `DT_STRTAB` pointer values seen (0 models
the initial `NULL`). -/
def ftLoop : List DynEntry → Nat → Nat → Nat × Nat
  | [], s, t => (s, t)
  | d :: rest, s, t =>
    if d.d_tag = DT_NULL then (s, t)
    else ftLoop rest (if d.d_tag = DT_SYMTAB then d.d_ptr else s)
                (if d.d_tag = DT_STRTAB then d.d_ptr else t)

/-- `find_tables` from `src/elflink.c`: scan the dynamic table starting at
index 1 (the C loop initializes `i = 1`) until `DT_NULL`; fail (C returns
`-1`) when no symbol table or no string table was recorded. -/
def find_tables (dyntab : List DynEntry) : Option (Nat × Nat) :=
  let st := ftLoop (dyntab.drop 1) 0 0
  if st.1 = 0 then none
  else if st.2 = 0 then none
  else some st

/-- `find_numsyms` from `src/elflink.c`: `-1` when the string table does not
lie strictly after the symbol table, else the byte distance divided by
`sizeof(Elf_Sym)`. -/
def find_numsyms (symtab strtab : Nat) : Int :=
  if strtab ≤ symtab then -1 else (((strtab - symtab) / SIZEOF_ELF_SYM : Nat) : Int)

/-- `keep_symbol` from `src/elflink.c`.  Note both bounds tests are
non-strict rejections: a symbol whose value equals `stop` (one past the
segment) is kept. -/
def keep_symbol (s : ElfSym) (start stop : Nat) : Bool :=
  if s.st_value < start then false
  else if s.st_value > stop then false
  else if ELF_ST_BIND s.st_info ≠ STB_GLOBAL ∧ ELF_ST_BIND s.st_info ≠ STB_WEAK then false
  else if ELF_ST_TYPE s.st_info ≠ STT_OBJECT then false
  else if s.st_size = 0 then false
  else true

/-- One iteration of the symbol loop in `get_extracopy`: accumulator is
`(found_sym, start, end)`, initialized to `(false, end_orig, start_orig)`. -/
def ecStep (so eo : Nat) (acc : Bool × Nat × Nat) (s : ElfSym) : Bool × Nat × Nat :=
  if keep_symbol s so eo then
    (true,
     if s.st_value < acc.2.1 then s.st_value else acc.2.1,
     if s.st_value + s.st_size > acc.2.2 then s.st_value + s.st_size else acc.2.2)
  else acc

/-- The `bail`/`bail2` exit of `get_extracopy`: record the whole zero-fill
tail as the copy window. -/
def fullTail (seg : SegInfo) (so eo : Nat) : SegInfo :=
  { seg with extra_vaddr := some so, extrasz := eo - so }

/-- `get_extracopy` from `src/elflink.c`.  `mc` is the `minimal_copy` mode
flag.  The debug-only `check_bss` pass only prints warnings and mutates
nothing, so it is not modelled.  The subtraction `en - st` models the C
pointer difference `end - start`; whenever a window is recorded the code
guarantees `st < en`, so `Nat` truncation never engages. -/
def get_extracopy (seg : SegInfo) (phdrs : List Phdr) (env : ElfEnv) (mc : Bool) : SegInfo :=
  let eo := seg.vaddr + seg.memsz
  let so := seg.vaddr + seg.filesz
  if seg.filesz = seg.memsz then seg
  else if ¬ mc then fullTail seg so eo
  else
    match find_dynamic phdrs env.oobPhdr with
    | none => fullTail seg so eo
    | some dt =>
      match find_tables (env.dynAt dt) with
      | none => fullTail seg so eo
      | some st =>
        let numsyms := find_numsyms st.1 st.2
        if numsyms < 0 then fullTail seg so eo
        else
          let syms := (List.range numsyms.toNat).map (env.symAt st.1)
          let r := syms.foldl (ecStep so eo) (false, eo, so)
          let st2 := if env.libhuge_filesz > r.2.2 then
                       (if r.2.1 = eo then so else r.2.1) else r.2.1
          let en2 := if env.libhuge_filesz > r.2.2 then env.libhuge_filesz else r.2.2
          if r.1 then { seg with extra_vaddr := some st2, extrasz := en2 - st2 } else seg

/-- Protection bits derived from program-header flags, as in `parse_elf`. -/
def protOf (flags : Nat) : Nat :=
  (if flags &&& PF_R ≠ 0 then PROT_READ else 0) |||
  (if flags &&& PF_W ≠ 0 then PROT_WRITE else 0) |||
  (if flags &&& PF_X ≠ 0 then PROT_EXEC else 0)

/-- Fresh descriptor-table entry recorded by `parse_elf` for program header
`p` at header index `i`, before `get_extracopy` runs on it. -/
def segOf (p : Phdr) (i : Nat) : SegInfo :=
  { vaddr := p.p_vaddr, filesz := p.p_filesz, memsz := p.p_memsz,
    extra_vaddr := none, extrasz := 0, prot := protOf p.p_flags, fd := -1, index := i }

/-- Loop of `parse_elf`: walk the program headers carrying the descriptor
table built so far (`acc` models `htlb_seg_table[0..htlb_num_segs)`).
Discovering a flagged segment when the table is already full zeroes the
count and returns immediately (`htlb_num_segs = 0; return;`). -/
def parse_elf_loop (phdrs0 : List Phdr) (env : ElfEnv) (mc : Bool) :
    List Phdr → Nat → List SegInfo → List SegInfo
  | [], _, acc => acc
  | p :: rest, i, acc =>
    if p.p_type ≠ PT_LOAD then parse_elf_loop phdrs0 env mc rest (i+1) acc
    else if p.p_flags &&& PF_LINUX_HUGETLB = 0 then parse_elf_loop phdrs0 env mc rest (i+1) acc
    else if MAX_HTLB_SEGS ≤ acc.length then []
    else parse_elf_loop phdrs0 env mc rest (i+1)
           (acc ++ [get_extracopy (segOf p i) phdrs0 env mc])

/-- `parse_elf` from `src/elflink.c`: the descriptor table produced from the
program-header table (the global `htlb_seg_table` together with
`htlb_num_segs`, both initially empty). -/
def parse_elf (phdrs : List Phdr) (env : ElfEnv) (mc : Bool) : List SegInfo :=
  parse_elf_loop phdrs env mc phdrs 0 []

/-- Number of program headers flagged for huge-page promotion
(`PT_LOAD` with the `PF_LINUX_HUGETLB` bit). -/
def hugetlbCount (phdrs : List Phdr) : Nat :=
  (phdrs.filter (fun p => p.p_type == PT_LOAD && p.p_flags &&& PF_LINUX_HUGETLB != 0)).length

/-- Formatting token for `unmapped_abort`.  The C function parses a format
string supporting only `%u` and `%p`; the shallow embedding pre-splits the
format into literal chunks and the two substitution kinds. -/
inductive FmtTok where
  | str (s : String)
  | unum (n : Nat)
  | ptr (n : Nat)
deriving DecidableEq

/-- Digit loop of `write_err_base`: little-endian digits of `val` in `base`.
The C buffer `str1` holds `sizeof(val)*8 = 64` characters, which bounds the
loop; fuel 64 models that bound exactly. -/
def digitsLE (base : Nat) : Nat → Nat → List Nat
  | _, 0 => []
  | v, f+1 => if v = 0 then [] else (v % base) :: digitsLE base (v / base) f

/-- `write_err_base` from `src/elflink.c`: digits written for `val` in
`base`, most significant first; a zero value prints the single digit 0. -/
def write_err_base_digits (val base : Nat) : List Nat :=
  let ds := digitsLE base val 64
  if ds = [] then [0] else ds.reverse

/-- Externally visible action of the remap engine and the abort path:
mapping syscalls, raw-syscall writes to stderr, and the self-signal. -/
inductive Ev where
  | bogusMmap
  | munmapEv (vaddr memsz : Nat)
  | mmapFixedEv (i : Nat) (res : Option Nat)
  | writeStr (s : String)
  | writeNum (digits : List Nat)
  | kill (sig : Nat)
deriving DecidableEq

/-- `unmapped_abort` from `src/elflink.c`: emit each chunk of the message
with the raw `write` syscall (`write_err` / `write_err_base`), then
terminate the process by raising `SIGABRT` at itself through the raw
`kill` syscall (`sys_abort`).  The function never returns. -/
def unmapped_abort (toks : List FmtTok) : List Ev :=
  (toks.map fun t =>
    match t with
    | .str s => Ev.writeStr s
    | .unum n => Ev.writeNum (write_err_base_digits n 10)
    | .ptr n => Ev.writeNum (write_err_base_digits n 16)) ++ [Ev.kill SIGABRT]

/-- Message of the `MAP_FAILED` abort in `remap_segments`. -/
def mapFailMsg (i vaddr vend errno : Nat) : List FmtTok :=
  [.str "Failed to map hugepage segment ", .unum i, .str ": ", .ptr vaddr,
   .str "-", .ptr vend, .str " (errno=", .unum errno, .str ")\n"]

/-- Message of the wrong-address abort in `remap_segments`. -/
def wrongAddrMsg (i vaddr vend p : Nat) : List FmtTok :=
  [.str "Mapped hugepage segment ", .unum i, .str " (", .ptr vaddr, .str "-",
   .ptr vend, .str ") at wrong address ", .ptr p, .str "\n"]

/-- Whether the remap engine returned to its caller (`ok`) or terminated the
process through the abort path (`aborted`). -/
inductive RemapResult where
  | ok
  | aborted
deriving DecidableEq

/-- Second loop of `remap_segments`: for each segment, `mmap` at the fixed
original address (`mm i` is the kernel's reply for segment `i`: `none` is
`MAP_FAILED`).  A failed mapping or a mapping at the wrong address runs
`unmapped_abort`; nothing executes after it. -/
def remapLoop (mm : Nat → Option Nat) (hpage errno : Nat) :
    List SegInfo → Nat → List Ev × RemapResult
  | [], _ => ([], .ok)
  | s :: rest, i =>
    let mapsize := align_up s.memsz hpage
    match mm i with
    | none =>
      ([Ev.mmapFixedEv i none] ++ unmapped_abort (mapFailMsg i s.vaddr (s.vaddr + mapsize) errno),
       .aborted)
    | some p =>
      if p = s.vaddr then
        let r := remapLoop mm hpage errno rest (i+1)
        (Ev.mmapFixedEv i (some p) :: r.1, r.2)
      else
        (Ev.mmapFixedEv i (some p) :: unmapped_abort (wrongAddrMsg i s.vaddr (s.vaddr + mapsize) p),
         .aborted)

/-- `remap_segments` from `src/elflink.c`: the bogus symbol-resolving
`mmap`, then `munmap` of every segment, then the fixed-address remap loop. -/
def remap_segments (segs : List SegInfo) (mm : Nat → Option Nat) (hpage errno : Nat) :
    List Ev × RemapResult :=
  let r := remapLoop mm hpage errno segs 0
  (Ev.bogusMmap :: (segs.map fun s => Ev.munmapEv s.vaddr s.memsz) ++ r.1, r.2)

/-- Size computation of `prepare_segment` in `src/elflink.c`, with the C
`unsigned long` subtraction modelled exactly (wrapping modulo `2^64`). -/
def prepare_segment_size (seg : SegInfo) (hpage : Nat) : Nat :=
  match seg.extra_vaddr with
  | some ev => align_up (wsub (ev + seg.extrasz) seg.vaddr) hpage
  | none => align_up seg.filesz hpage

/-- Size computation as the spec words it: `align_up(extra_end − vaddr,
hugepage_size)` when a copy window exists, else `align_up(filesz,
hugepage_size)`, in exact (non-wrapping) arithmetic. -/
def prepare_segment_size_spec (seg : SegInfo) (hpage : Nat) : Nat :=
  match seg.extra_vaddr with
  | some ev => align_up (ev + seg.extrasz - seg.vaddr) hpage
  | none => align_up seg.filesz hpage

/-- Outside world seen by `find_or_create_share_path`: the environment
variable, and what the filesystem calls would report about the directory. -/
structure SharePathEnv where
  envPath : Bool
  envOnHugetlbfs : Bool
  mkdirRet : Int
  mkdirErrno : Nat
  lstatRet : Int
  isDir : Bool
  st_uid : Nat
  st_mode : Nat
  uid : Nat
deriving DecidableEq

/-- `find_or_create_share_path` from `src/elflink.c`.  With the explicit
`HUGETLB_SHARE_PATH` override only `hugetlbfs_test_path` is consulted; the
`mkdir`/`lstat`/owner/permission checks run only for the default per-uid
path.  Returns `0` on success, `-1` on error. -/
def find_or_create_share_path (e : SharePathEnv) : Int :=
  if e.envPath then
    if ¬ e.envOnHugetlbfs then -1 else 0
  else if e.mkdirRet ≠ 0 ∧ e.mkdirErrno ≠ EEXIST then -1
  else if e.lstatRet ≠ 0 then -1
  else if ¬ e.isDir then -1
  else if e.st_uid ≠ e.uid then -1
  else if e.st_mode &&& (S_IWGRP ||| S_IWOTH) ≠ 0 then -1
  else 0

/-- Step of the bootstrap orchestrator, as recorded in its event trace. -/
inductive SEv where
  | parsed (numSegs : Nat)
  | sharePath (ok : Bool)
  | obtain (i : Nat) (ok : Bool)
  | remap
deriving DecidableEq

/-- Configuration and oracle results consumed by `setup_elflink`:
`ehdrFound` models the weak `__executable_start` symbol being non-null,
`checkEnvOk` the result of `check_env`, `minimalCopy` and `sharing` the
mode flags it sets, `shareEnv` the world seen by
`find_or_create_share_path`, and `obtainOk i` whether
`obtain_prepared_file` succeeds for descriptor-table entry `i`. -/
structure Config where
  ehdrFound : Bool
  checkEnvOk : Bool
  minimalCopy : Bool
  sharing : Bool
  shareEnv : SharePathEnv
  obtainOk : Nat → Bool

/-- Preparation loop of `setup_elflink`: obtain a prepared backing file for
each descriptor in turn; the first failure returns immediately
(`DEBUG(...); return;`).  Result: events in order, and whether every
segment was prepared. -/
def obtainLoop (ok : Nat → Bool) : Nat → Nat → List SEv × Bool
  | _, 0 => ([], true)
  | i, k+1 =>
    if ok i then
      let r := obtainLoop ok (i+1) k
      (SEv.obtain i true :: r.1, r.2)
    else ([SEv.obtain i false], false)

/-- Tail of `setup_elflink` after the share-directory step: the preparation
loop, then — only when every segment was prepared — the remap engine. -/
def setup_tail (cfg : Config) (n : Nat) : List SEv :=
  let r := obtainLoop cfg.obtainOk 0 n
  r.1 ++ (if r.2 then [SEv.remap] else [])

/-- `setup_elflink` from `src/elflink.c` (the library constructor), as the
trace of orchestration steps it performs.  Every early `return` leaves the
process on its originally loaded mappings; `SEv.remap` marks the single
call into `remap_segments`, the only operation that touches the address
space. -/
def setup_elflink (cfg : Config) (phdrs : List Phdr) (env : ElfEnv) : List SEv :=
  if ¬ cfg.ehdrFound then []
  else if ¬ cfg.checkEnvOk then []
  else
    let segs := parse_elf phdrs env cfg.minimalCopy
    SEv.parsed segs.length ::
      (if segs.length = 0 then []
       else if cfg.sharing then
         (if find_or_create_share_path cfg.shareEnv ≠ 0 then [SEv.sharePath false]
          else SEv.sharePath true :: setup_tail cfg segs.length)
       else setup_tail cfg segs.length)

/-- Filesystem action performed by `find_or_prepare_shared_file`, in program
order.  `openTmp`/`openFinal` carry the iteration number and the returned
descriptor (negative on failure), `setFd` the assignment to
`htlb_seg_info->fd`. -/
inductive FEv where
  | openTmp (k : Nat) (fd : Int)
  | openFinal (k : Nat) (fd : Int)
  | setFd (fd : Int)
  | prepare (ok : Bool)
  | renameTmp (ok : Bool)
  | unlinkTmp
  | closeFd (fd : Int)
  | sleep
deriving DecidableEq

/-- Results of one iteration's two `open` calls in
`find_or_prepare_shared_file`: the exclusive-create of the `.tmp` file and
the read-only open of the final file, with their `errno` values. -/
structure IterR where
  fdx : Int
  errnox : Nat
  fds : Int
  errnos : Nat
deriving DecidableEq

/-- Outside world seen by `find_or_prepare_shared_file`: whether
`get_shared_file_name` succeeds, the per-iteration `open` results, and the
per-iteration outcomes of `prepare_segment` and `rename`. -/
structure ShareEnv where
  nameOk : Bool
  iter : Nat → IterR
  prepOk : Nat → Bool
  renameOk : Nat → Bool

/-- Cleanup at the `fail` label of `find_or_prepare_shared_file`.  Both
tests are strict (`fdx > 0`, `fds > 0`): a descriptor equal to 0 is not
cleaned up. -/
def failCleanup (r : IterR) : List FEv :=
  (if r.fdx > 0 then [FEv.unlinkTmp, FEv.closeFd r.fdx] else []) ++
  (if r.fds > 0 then [FEv.closeFd r.fds] else [])

/-- Retry loop of `find_or_prepare_shared_file`, one recursive step per
`do { ... } while (1)` iteration `k`.  `none` means the fuel ran out while
the loop was still polling (the C loop has no timeout); otherwise the
result is the event trace together with the function's return value. -/
def fopsLoop (e : ShareEnv) : Nat → Nat → Option (List FEv × Int)
  | 0, _ => none
  | fuel+1, k =>
    let r := e.iter k
    let pre := [FEv.openTmp k r.fdx, FEv.openFinal k r.fds]
    if r.fds ≥ 0 then
      some (pre ++ (if r.fdx > 0 then [FEv.unlinkTmp, FEv.closeFd r.fdx] else []) ++
            [FEv.setFd r.fds], 0)
    else if r.fdx ≥ 0 then
      if e.prepOk k then
        if e.renameOk k then
          some (pre ++ [FEv.setFd r.fdx, FEv.prepare true, FEv.renameTmp true], 0)
        else
          some (pre ++ [FEv.setFd r.fdx, FEv.prepare true, FEv.renameTmp false] ++
                failCleanup r, -1)
      else
        some (pre ++ [FEv.setFd r.fdx, FEv.prepare false] ++ failCleanup r, -1)
    else
      match fopsLoop e fuel (k+1) with
      | none => none
      | some res => some (pre ++ FEv.sleep :: res.1, res.2)

/-- `find_or_prepare_shared_file` from `src/elflink.c`: fail outright when
the shared file name cannot be built, else run the retry loop. -/
def find_or_prepare_shared_file (e : ShareEnv) (fuel : Nat) : Option (List FEv × Int) :=
  if ¬ e.nameOk then some ([], -1) else fopsLoop e fuel 0

/-- Symbols the scan of `get_extracopy` keeps: among the `n` symbol-table
entries, those passing `keep_symbol` for the zero-fill tail
`[so, eo]`. -/
def keptSyms (env : ElfEnv) (symtab n so eo : Nat) : List ElfSym :=
  ((List.range n).map (env.symAt symtab)).filter (fun x => keep_symbol x so eo)

/-- Symbol-derived window start: minimum kept `st_value`, folded into the
loop's initial value `end_orig`. -/
def symWinStart (eo : Nat) (kept : List ElfSym) : Nat :=
  kept.foldl (fun a x => min a x.st_value) eo

/-- Symbol-derived window end: maximum kept `st_value + st_size`, folded
into the loop's initial value `start_orig`. -/
def symWinEnd (so : Nat) (kept : List ElfSym) : Nat :=
  kept.foldl (fun a x => max a (x.st_value + x.st_size)) so

/-- All-zero program header, used as the contents of unrelated memory. -/
def zeroPhdr : Phdr :=
  { p_type := 0, p_flags := 0, p_vaddr := 0, p_filesz := 0, p_memsz := 0 }

/-- All-zero symbol record. -/
def zeroSym : ElfSym := { st_value := 0, st_size := 0, st_info := 0 }

/-- Placeholder descriptor used as the `List.getD` default at indices that
are known to be in range. -/
def seg0 : SegInfo :=
  { vaddr := 0, filesz := 0, memsz := 0, extra_vaddr := none, extrasz := 0,
    prot := 0, fd := -1, index := 0 }

/-- Concrete test segment: 0x3000 file-backed bytes, 0x2000 zero-fill tail. -/
def cSeg : SegInfo :=
  { vaddr := 0, filesz := 0x3000, memsz := 0x5000, extra_vaddr := none,
    extrasz := 0, prot := PROT_READ, fd := -1, index := 0 }

/-- Concrete program-header table: one promotable `PT_LOAD` segment and a
`PT_DYNAMIC` header pointing at address 0x100. -/
def cPhdrs : List Phdr :=
  [ { p_type := PT_LOAD, p_flags := PF_R ||| PF_LINUX_HUGETLB, p_vaddr := 0,
      p_filesz := 0x3000, p_memsz := 0x5000 },
    { p_type := PT_DYNAMIC, p_flags := PF_R, p_vaddr := 0x100,
      p_filesz := 0, p_memsz := 0 } ]

/-- Concrete environment whose adjacency-derived symbol count is zero: the
string table sits 16 bytes after the symbol table, less than one
`sizeof(Elf_Sym)`. -/
def cEnvZeroCount : ElfEnv :=
  { oobPhdr := fun _ => zeroPhdr,
    dynAt := fun _ => [⟨0, 0⟩, ⟨DT_SYMTAB, 0x200⟩, ⟨DT_STRTAB, 0x210⟩, ⟨DT_NULL, 0⟩],
    symAt := fun _ _ => zeroSym,
    libhuge_filesz := 0 }

/-- Concrete environment with exactly one symbol-table entry, kept with
byte range `[0x3100, 0x3180)` inside the zero-fill tail, and the sentinel
at 0x4000, beyond the symbol-derived end. -/
def cEnvOneSym : ElfEnv :=
  { oobPhdr := fun _ => zeroPhdr,
    dynAt := fun _ => [⟨0, 0⟩, ⟨DT_SYMTAB, 0x200⟩, ⟨DT_STRTAB, 0x218⟩, ⟨DT_NULL, 0⟩],
    symAt := fun _ k =>
      if k = 0 then { st_value := 0x3100, st_size := 0x80, st_info := 0x11 } else zeroSym,
    libhuge_filesz := 0x4000 }

/-- Concrete environment that keeps no symbol (the only entry has size 0)
while the sentinel at 0x4000 lies beyond the loop's initial end. -/
def cEnvNoKept : ElfEnv :=
  { oobPhdr := fun _ => zeroPhdr,
    dynAt := fun _ => [⟨0, 0⟩, ⟨DT_SYMTAB, 0x200⟩, ⟨DT_STRTAB, 0x218⟩, ⟨DT_NULL, 0⟩],
    symAt := fun _ k =>
      if k = 0 then { st_value := 0x3100, st_size := 0, st_info := 0x11 } else zeroSym,
    libhuge_filesz := 0x4000 }

/-- Variant of `cEnvOneSym` whose sentinel at 0x3000 does not reach beyond
the symbol-derived end. -/
def cEnvOneSymLowSent : ElfEnv := { cEnvOneSym with libhuge_filesz := 0x3000 }

/-- One-entry program-header table containing no `PT_DYNAMIC` header. -/
def cPhdrOne : List Phdr :=
  [ { p_type := PT_LOAD, p_flags := 0, p_vaddr := 0, p_filesz := 0, p_memsz := 0 } ]

/-- Promotable header with no zero-fill tail, used in witness tables. -/
def hugePhdr : Phdr :=
  { p_type := PT_LOAD, p_flags := PF_R ||| PF_LINUX_HUGETLB, p_vaddr := 0x1000,
    p_filesz := 0x1000, p_memsz := 0x1000 }

/-- Trivial scanner environment for witnesses. -/
def cEnvTrivial : ElfEnv :=
  { oobPhdr := fun _ => zeroPhdr, dynAt := fun _ => [],
    symAt := fun _ _ => zeroSym, libhuge_filesz := 0 }

/-- Benign share-path world for witness configurations. -/
def cShareOk : SharePathEnv :=
  { envPath := false, envOnHugetlbfs := false, mkdirRet := 0, mkdirErrno := 0,
    lstatRet := 0, isDir := true, st_uid := 1000, st_mode := 448, uid := 1000 }

/-- Witness configuration in which every step succeeds. -/
def cCfgAllOk : Config :=
  { ehdrFound := true, checkEnvOk := true, minimalCopy := true, sharing := false,
    shareEnv := cShareOk, obtainOk := fun _ => true }

/-- Witness configuration in which preparing segment 1 fails. -/
def cCfgObtainFail : Config := { cCfgAllOk with obtainOk := fun i => i == 0 }

/-- Share-path world with an explicit override on hugetlbfs while the
directory is group/other-writable and owned by another user. -/
def cShareOverrideBad : SharePathEnv :=
  { envPath := true, envOnHugetlbfs := true, mkdirRet := 0, mkdirErrno := 0,
    lstatRet := 0, isDir := true, st_uid := 1000, st_mode := 511, uid := 0 }

/-- Configuration whose share-path step fails while sharing is enabled. -/
def cCfgShareFail : Config :=
  { ehdrFound := true, checkEnvOk := true, minimalCopy := true, sharing := true,
    shareEnv := { envPath := true, envOnHugetlbfs := false, mkdirRet := 0,
                  mkdirErrno := 0, lstatRet := 0, isDir := true, st_uid := 0,
                  st_mode := 448, uid := 0 },
    obtainOk := fun _ => true }

/-- Shared-file world where the preparer wins the exclusive create with
descriptor 0 and the materializer fails. -/
def cShareFdZero : ShareEnv :=
  { nameOk := true,
    iter := fun _ => { fdx := 0, errnox := 0, fds := -1, errnos := ENOENT },
    prepOk := fun _ => false, renameOk := fun _ => true }

/-- Shared-file world where the preparer wins the exclusive create with
descriptor 3 and the materializer fails. -/
def cShareFd3PrepFail : ShareEnv :=
  { nameOk := true,
    iter := fun _ => { fdx := 3, errnox := 0, fds := -1, errnos := ENOENT },
    prepOk := fun _ => false, renameOk := fun _ => true }

/-- Witness segment for the remap engine. -/
def cRemapSeg : SegInfo :=
  { vaddr := 0x1000, filesz := 0x1000, memsz := 0x1000, extra_vaddr := none,
    extrasz := 0, prot := PROT_READ, fd := 3, index := 0 }

/-- Witness segment with a copy window for the materializer size. -/
def cPrepSeg : SegInfo :=
  { vaddr := 0, filesz := 0x3000, memsz := 0x5000, extra_vaddr := some 0x3100,
    extrasz := 0x80, prot := PROT_READ, fd := 3, index := 0 }

/-- Wrapped `unsigned long` subtraction agrees with exact subtraction when
the minuend dominates and fits in 64 bits. -/
theorem wsub_eq (a b : Nat) (hba : b ≤ a) (ha : a < UINT64_LIMIT) : wsub a b = a - b := by
  have hb : b < UINT64_LIMIT := lt_of_le_of_lt hba ha
  unfold wsub
  rw [Nat.mod_eq_of_lt ha, Nat.mod_eq_of_lt hb]
  have h1 : a + (UINT64_LIMIT - b) = UINT64_LIMIT + (a - b) := by omega
  rw [h1, Nat.add_mod_left, Nat.mod_eq_of_lt (by omega)]

/-- Unfolding of `keep_symbol` into its five conditions. -/
theorem keep_symbol_iff (s : ElfSym) (start stop : Nat) :
    keep_symbol s start stop = true ↔
      (start ≤ s.st_value ∧ s.st_value ≤ stop ∧
       (ELF_ST_BIND s.st_info = STB_GLOBAL ∨ ELF_ST_BIND s.st_info = STB_WEAK) ∧
       ELF_ST_TYPE s.st_info = STT_OBJECT ∧ s.st_size ≠ 0) := by
  unfold keep_symbol
  split_ifs with h1 h2 h3 h4 h5 <;> simp <;> omega

/-- Bounds of a kept symbol: its value lies in `[start, stop]` and its size
is nonzero. -/
theorem keep_symbol_bounds {s : ElfSym} {start stop : Nat}
    (h : keep_symbol s start stop = true) :
    start ≤ s.st_value ∧ s.st_value ≤ stop ∧ 1 ≤ s.st_size := by
  have := (keep_symbol_iff s start stop).mp h
  omega

/-- The symbol loop of `get_extracopy` computes (1) whether any symbol was
kept, (2) the minimum kept start folded into the initial `end_orig`, and
(3) the maximum kept end folded into the initial `start_orig`. -/
theorem ecFold_eq (so eo : Nat) :
    ∀ (syms : List ElfSym) (b : Bool) (s e : Nat),
      syms.foldl (ecStep so eo) (b, s, e) =
        ((b || !(syms.filter (fun x => keep_symbol x so eo)).isEmpty),
         (syms.filter (fun x => keep_symbol x so eo)).foldl (fun a x => min a x.st_value) s,
         (syms.filter (fun x => keep_symbol x so eo)).foldl
           (fun a x => max a (x.st_value + x.st_size)) e) := by
  intro syms
  induction syms with
  | nil => intro b s e; simp
  | cons x xs ih =>
    intro b s e
    by_cases hk : keep_symbol x so eo = true
    · have h1 : (if x.st_value < s then x.st_value else s) = min s x.st_value := by
        rw [Nat.min_def]; split_ifs <;> omega
      have h2 : (if x.st_value + x.st_size > e then x.st_value + x.st_size else e)
          = max e (x.st_value + x.st_size) := by
        rw [Nat.max_def]; split_ifs <;> omega
      have hstep : ecStep so eo (b, s, e) x =
          (true, min s x.st_value, max e (x.st_value + x.st_size)) := by
        show (if keep_symbol x so eo then
                (true,
                 if x.st_value < s then x.st_value else s,
                 if x.st_value + x.st_size > e then x.st_value + x.st_size else e)
              else (b, s, e)) = _
        rw [if_pos hk, h1, h2]
      rw [List.foldl_cons, hstep, ih, List.filter_cons, if_pos hk]
      simp [List.foldl_cons, List.isEmpty_cons]
    · have hk' : keep_symbol x so eo = false := by
        cases hkk : keep_symbol x so eo
        · rfl
        · exact absurd hkk hk
      have hstep : ecStep so eo (b, s, e) x = (b, s, e) := by
        unfold ecStep; rw [if_neg (by simp [hk'])]
      simp only [List.foldl_cons, hstep, List.filter_cons, hk']
      exact ih b s e

/-- A left fold of `min` is a lower bound of the initial value. -/
theorem foldl_min_le_init (l : List Nat) : ∀ i : Nat, l.foldl min i ≤ i := by
  induction l with
  | nil => intro i; simp
  | cons a l ih =>
    intro i
    calc (a :: l).foldl min i = l.foldl min (min i a) := by simp
    _ ≤ min i a := ih (min i a)
    _ ≤ i := Nat.min_le_left i a

/-- A left fold of `min` is a lower bound of every list element. -/
theorem foldl_min_le (l : List Nat) : ∀ (i v : Nat), v ∈ l → l.foldl min i ≤ v := by
  induction l with
  | nil => intro i v hv; cases hv
  | cons a l ih =>
    intro i v hv
    rcases List.mem_cons.mp hv with h | h
    · subst h
      calc (v :: l).foldl min i = l.foldl min (min i v) := by simp
      _ ≤ min i v := foldl_min_le_init l (min i v)
      _ ≤ v := Nat.min_le_right i v
    · simpa using ih (min i a) v h

/-- A left fold of `min` is an element of the list or the initial value. -/
theorem foldl_min_mem_or (l : List Nat) : ∀ i : Nat, l.foldl min i ∈ l ∨ l.foldl min i = i := by
  induction l with
  | nil => intro i; right; rfl
  | cons a l ih =>
    intro i
    have h := ih (min i a)
    rcases h with h | h
    · left; simp only [List.foldl_cons]; exact List.mem_cons_of_mem a h
    · simp only [List.foldl_cons, h]
      rcases Nat.le_total i a with hle | hle
      · right; exact Nat.min_eq_left hle
      · left; rw [Nat.min_eq_right hle]; exact List.mem_cons_self a l

/-- A left fold of `max` dominates the initial value. -/
theorem le_foldl_max_init (l : List Nat) : ∀ i : Nat, i ≤ l.foldl max i := by
  induction l with
  | nil => intro i; simp
  | cons a l ih =>
    intro i
    calc i ≤ max i a := Nat.le_max_left i a
    _ ≤ l.foldl max (max i a) := ih (max i a)
    _ = (a :: l).foldl max i := by simp

/-- A left fold of `max` dominates every list element. -/
theorem le_foldl_max (l : List Nat) : ∀ (i v : Nat), v ∈ l → v ≤ l.foldl max i := by
  induction l with
  | nil => intro i v hv; cases hv
  | cons a l ih =>
    intro i v hv
    rcases List.mem_cons.mp hv with h | h
    · subst h
      calc v ≤ max i v := Nat.le_max_right i v
      _ ≤ l.foldl max (max i v) := le_foldl_max_init l (max i v)
      _ = (v :: l).foldl max i := by simp
    · simpa using ih (max i a) v h

/-- A left fold of `max` is an element of the list or the initial value. -/
theorem foldl_max_mem_or (l : List Nat) : ∀ i : Nat, l.foldl max i ∈ l ∨ l.foldl max i = i := by
  induction l with
  | nil => intro i; right; rfl
  | cons a l ih =>
    intro i
    have h := ih (max i a)
    rcases h with h | h
    · left; simp only [List.foldl_cons]; exact List.mem_cons_of_mem a h
    · simp only [List.foldl_cons, h]
      rcases Nat.le_total i a with hle | hle
      · left; rw [Nat.max_eq_right hle]; exact List.mem_cons_self a l
      · right; exact Nat.max_eq_left hle

/-- Behavior of `get_extracopy` on the path where the dynamic metadata was
located and the symbol count is non-negative: the result is determined by
the kept symbols and the sentinel. -/
theorem get_extracopy_syms (seg : SegInfo) (phdrs : List Phdr) (env : ElfEnv)
    (dt symtab strtab : Nat) (n : Nat)
    (hne : seg.filesz ≠ seg.memsz)
    (hfd : find_dynamic phdrs env.oobPhdr = some dt)
    (hft : find_tables (env.dynAt dt) = some (symtab, strtab))
    (hns : find_numsyms symtab strtab = (n : Int)) :
    get_extracopy seg phdrs env true =
      (let so := seg.vaddr + seg.filesz
       let eo := seg.vaddr + seg.memsz
       let kept := keptSyms env symtab n so eo
       if kept.isEmpty then seg
       else
         let st := symWinStart eo kept
         let en := symWinEnd so kept
         let st2 := if env.libhuge_filesz > en then (if st = eo then so else st) else st
         let en2 := if env.libhuge_filesz > en then env.libhuge_filesz else en
         { seg with extra_vaddr := some st2, extrasz := en2 - st2 }) := by
  unfold get_extracopy
  rw [if_neg hne]
  rw [if_neg (by simp : ¬ ¬ (true : Bool) = true)]
  simp only [hfd, hft, hns]
  rw [if_neg (by exact not_lt.mpr (Int.ofNat_nonneg n))]
  have htn : ((n : Int)).toNat = n := Int.toNat_ofNat n
  rw [htn]
  rw [ecFold_eq (seg.vaddr + seg.filesz) (seg.vaddr + seg.memsz)
        ((List.range n).map (env.symAt symtab)) false
        (seg.vaddr + seg.memsz) (seg.vaddr + seg.filesz)]
  simp only [Bool.false_or, keptSyms, symWinStart, symWinEnd]
  by_cases hke : (((List.range n).map (env.symAt symtab)).filter
      (fun x => keep_symbol x (seg.vaddr + seg.filesz) (seg.vaddr + seg.memsz))).isEmpty
  · rw [hke]
    simp
  · have hke' : (((List.range n).map (env.symAt symtab)).filter
        (fun x => keep_symbol x (seg.vaddr + seg.filesz) (seg.vaddr + seg.memsz))).isEmpty
        = false := by
      cases h : (((List.range n).map (env.symAt symtab)).filter
          (fun x => keep_symbol x (seg.vaddr + seg.filesz) (seg.vaddr + seg.memsz))).isEmpty
      · rfl
      · exact absurd h hke
    rw [hke']
    simp

/-- C4: for every segment descriptor, `prepare_segment` computes the total
backing-file population size as `align_up(extra_vaddr + extrasz − vaddr,
hugepage_size)` when a copy window is set (`extra_vaddr` non-null), and as
`align_up(filesz, hugepage_size)` when no copy window is set.
`prepare_segment_size_spec` is the spec's formula in exact arithmetic; the
hypothesis says the window end is at or above the segment base and fits in
64 bits, which the descriptor invariants guarantee. -/
theorem prepare_segment_size_correct (seg : SegInfo) (hpage : Nat)
    (h : ∀ ev, seg.extra_vaddr = some ev →
      seg.vaddr ≤ ev + seg.extrasz ∧ ev + seg.extrasz < UINT64_LIMIT) :
    prepare_segment_size seg hpage = prepare_segment_size_spec seg hpage := by
  unfold prepare_segment_size prepare_segment_size_spec
  cases hev : seg.extra_vaddr with
  | none => rfl
  | some ev =>
    have hh := h ev hev
    show align_up (wsub (ev + seg.extrasz) seg.vaddr) hpage =
      align_up (ev + seg.extrasz - seg.vaddr) hpage
    rw [wsub_eq _ _ hh.1 hh.2]

/-- Witness for `prepare_segment_size_correct` at a concrete descriptor
with a copy window. -/
theorem prepare_segment_size_correct_witness :
    prepare_segment_size cPrepSeg 0x200000 = prepare_segment_size_spec cPrepSeg 0x200000 := by
  apply prepare_segment_size_correct
  intro ev hev
  have hc : cPrepSeg.extra_vaddr = some 0x3100 := rfl
  rw [hc] at hev
  have h1 : ev = 0x3100 := (Option.some_inj.mp hev).symm
  subst h1
  exact ⟨by decide, by decide⟩

/-- C10: refuted by the code — on a one-entry program-header table with no
`PT_DYNAMIC` entry, `find_dynamic` evaluates `phdr[i].p_type` at index
`i = 1 = phnum`, one element past the table: the loop condition reads
`phdr[i]` before testing `i < phnum`, and the post-loop check re-reads the
same out-of-bounds entry. -/
theorem find_dynamic_reads_past_end :
    cPhdrOne.length ∈ find_dynamic_reads cPhdrOne (fun _ => zeroPhdr) ∧
    cPhdrOne.length = 1 ∧
    (∀ p ∈ cPhdrOne, p.p_type ≠ PT_DYNAMIC) := by
  decide

/-- C5: refuted as stated — with the adjacency-derived symbol count equal
to zero (string table 16 bytes beyond the symbol table, less than one
entry size), `get_extracopy` does not fall back to copying the whole
zero-fill tail: the bail test is strict (`numsyms < 0`), the scan runs
over zero symbols, and the copy window is left unset. -/
theorem get_extracopy_zero_count_no_fallback :
    find_dynamic cPhdrs cEnvZeroCount.oobPhdr = some 0x100 ∧
    find_tables (cEnvZeroCount.dynAt 0x100) = some (0x200, 0x210) ∧
    find_numsyms 0x200 0x210 = 0 ∧
    (get_extracopy cSeg cPhdrs cEnvZeroCount true).extra_vaddr = none ∧
    (get_extracopy cSeg cPhdrs cEnvZeroCount true).extra_vaddr ≠
      some (cSeg.vaddr + cSeg.filesz) := by
  decide

/-- C5 (amended): if the dynamic program header, the symbol table, or the
string table cannot be located, or the adjacency-derived symbol-table
entry count is negative (string table not strictly after the symbol
table), then `get_extracopy` sets the copy window to the entire zero-fill
tail; a count of exactly zero instead runs the scan over zero symbols and
leaves the window unset. -/
theorem get_extracopy_fallback_full_tail (seg : SegInfo) (phdrs : List Phdr) (env : ElfEnv)
    (hne : seg.filesz ≠ seg.memsz)
    (h : find_dynamic phdrs env.oobPhdr = none ∨
         (∃ dt, find_dynamic phdrs env.oobPhdr = some dt ∧
            find_tables (env.dynAt dt) = none) ∨
         (∃ dt symtab strtab, find_dynamic phdrs env.oobPhdr = some dt ∧
            find_tables (env.dynAt dt) = some (symtab, strtab) ∧
            find_numsyms symtab strtab < 0)) :
    (get_extracopy seg phdrs env true).extra_vaddr = some (seg.vaddr + seg.filesz) ∧
    (get_extracopy seg phdrs env true).extrasz = seg.memsz - seg.filesz := by
  have hfull : get_extracopy seg phdrs env true =
      fullTail seg (seg.vaddr + seg.filesz) (seg.vaddr + seg.memsz) := by
    unfold get_extracopy
    rw [if_neg hne, if_neg (by simp : ¬ ¬ (true : Bool) = true)]
    rcases h with h | ⟨dt, h1, h2⟩ | ⟨dt, symtab, strtab, h1, h2, h3⟩
    · simp only [h]
    · simp only [h1, h2]
    · simp only [h1, h2]
      rw [if_pos h3]
  rw [hfull]
  unfold fullTail
  constructor
  · rfl
  · show (seg.vaddr + seg.memsz) - (seg.vaddr + seg.filesz) = seg.memsz - seg.filesz
    omega

/-- Witness for `get_extracopy_fallback_full_tail`: a table with no
dynamic header triggers the full-tail fallback. -/
theorem get_extracopy_fallback_full_tail_witness :
    (get_extracopy cSeg cPhdrOne cEnvTrivial true).extra_vaddr = some 0x3000 ∧
    (get_extracopy cSeg cPhdrOne cEnvTrivial true).extrasz = 0x2000 := by
  have h := get_extracopy_fallback_full_tail cSeg cPhdrOne cEnvTrivial
    (by decide) (Or.inl (by decide))
  exact ⟨h.1, h.2⟩

/-- Every symbol in `keptSyms` passes `keep_symbol` for the tail bounds. -/
theorem keptSyms_keep {env : ElfEnv} {symtab n so eo : Nat} {x : ElfSym}
    (hx : x ∈ keptSyms env symtab n so eo) : keep_symbol x so eo = true :=
  (List.mem_filter.mp hx).2

/-- C6 (amended): with located dynamic metadata and a non-negative symbol
count, provided at least one symbol is kept and the sentinel does not lie
beyond the symbol-derived end, the recorded copy window is exactly the
union of the byte ranges `[st_value, st_value + st_size)` of precisely the
kept symbols — those whose value lies in the inclusive range
`[vaddr+filesz, vaddr+memsz]` (the code's upper bound is inclusive), whose
binding is global or weak, whose type is object, and whose size is nonzero
— and of no others: the window start is the minimum kept start and the
window end the maximum kept end. -/
theorem get_extracopy_window_min_max (seg : SegInfo) (phdrs : List Phdr) (env : ElfEnv)
    (dt symtab strtab n so eo : Nat)
    (hso : so = seg.vaddr + seg.filesz) (heo : eo = seg.vaddr + seg.memsz)
    (hne : seg.filesz ≠ seg.memsz)
    (hfd : find_dynamic phdrs env.oobPhdr = some dt)
    (hft : find_tables (env.dynAt dt) = some (symtab, strtab))
    (hns : find_numsyms symtab strtab = (n : Int))
    (hkept : keptSyms env symtab n so eo ≠ [])
    (hsent : env.libhuge_filesz ≤ symWinEnd so (keptSyms env symtab n so eo)) :
    ∃ ws we,
      (get_extracopy seg phdrs env true).extra_vaddr = some ws ∧
      (get_extracopy seg phdrs env true).extrasz = we - ws ∧
      ws ∈ (keptSyms env symtab n so eo).map ElfSym.st_value ∧
      (∀ v ∈ (keptSyms env symtab n so eo).map ElfSym.st_value, ws ≤ v) ∧
      we ∈ (keptSyms env symtab n so eo).map (fun x => x.st_value + x.st_size) ∧
      (∀ v ∈ (keptSyms env symtab n so eo).map (fun x => x.st_value + x.st_size), v ≤ we) := by
  subst hso heo
  have hres := get_extracopy_syms seg phdrs env dt symtab strtab n hne hfd hft hns
  set kept := keptSyms env symtab n (seg.vaddr + seg.filesz) (seg.vaddr + seg.memsz)
    with hkdef
  have hkeF : kept.isEmpty = false := by
    cases hc : kept with
    | nil => exact absurd hc hkept
    | cons a l => rfl
  have hnogt : ¬ (env.libhuge_filesz > symWinEnd (seg.vaddr + seg.filesz) kept) :=
    not_lt.mpr hsent
  rw [hres]
  simp only [hkeF, Bool.false_eq_true, if_false, if_neg hnogt]
  refine ⟨symWinStart (seg.vaddr + seg.memsz) kept,
          symWinEnd (seg.vaddr + seg.filesz) kept, rfl, rfl, ?_, ?_, ?_, ?_⟩
  · -- window start is a kept symbol's start
    have hws : symWinStart (seg.vaddr + seg.memsz) kept =
        (kept.map ElfSym.st_value).foldl min (seg.vaddr + seg.memsz) := by
      unfold symWinStart
      rw [List.foldl_map]
    rw [hws]
    have hne' : kept.map ElfSym.st_value ≠ [] := by
      intro hmap
      exact hkept (List.map_eq_nil_iff.mp hmap)
    obtain ⟨v0, hv0⟩ := List.exists_mem_of_ne_nil _ hne'
    rcases foldl_min_mem_or (kept.map ElfSym.st_value) (seg.vaddr + seg.memsz) with h | h
    · exact h
    · have h1 := foldl_min_le (kept.map ElfSym.st_value) (seg.vaddr + seg.memsz) v0 hv0
      have h2 : v0 ≤ seg.vaddr + seg.memsz := by
        rcases List.mem_map.mp hv0 with ⟨x, hx, hxv⟩
        have hb := keep_symbol_bounds (keptSyms_keep hx)
        omega
      have h3 : v0 = (kept.map ElfSym.st_value).foldl min (seg.vaddr + seg.memsz) := by
        omega
      rw [← h3]
      exact hv0
  · -- window start is below every kept symbol's start
    intro v hv
    have hws : symWinStart (seg.vaddr + seg.memsz) kept =
        (kept.map ElfSym.st_value).foldl min (seg.vaddr + seg.memsz) := by
      unfold symWinStart
      rw [List.foldl_map]
    rw [hws]
    exact foldl_min_le _ _ v hv
  · -- window end is a kept symbol's end
    have hwe : symWinEnd (seg.vaddr + seg.filesz) kept =
        (kept.map (fun x => x.st_value + x.st_size)).foldl max (seg.vaddr + seg.filesz) := by
      unfold symWinEnd
      rw [List.foldl_map]
    rw [hwe]
    have hne' : kept.map (fun x => x.st_value + x.st_size) ≠ [] := by
      intro hmap
      exact hkept (List.map_eq_nil_iff.mp hmap)
    obtain ⟨v0, hv0⟩ := List.exists_mem_of_ne_nil _ hne'
    rcases foldl_max_mem_or (kept.map (fun x => x.st_value + x.st_size))
        (seg.vaddr + seg.filesz) with h | h
    · exact h
    · have h1 := le_foldl_max (kept.map (fun x => x.st_value + x.st_size))
        (seg.vaddr + seg.filesz) v0 hv0
      have h2 : seg.vaddr + seg.filesz + 1 ≤ v0 := by
        rcases List.mem_map.mp hv0 with ⟨x, hx, hxv⟩
        have hb := keep_symbol_bounds (keptSyms_keep hx)
        omega
      omega
  · -- window end dominates every kept symbol's end
    intro v hv
    have hwe : symWinEnd (seg.vaddr + seg.filesz) kept =
        (kept.map (fun x => x.st_value + x.st_size)).foldl max (seg.vaddr + seg.filesz) := by
      unfold symWinEnd
      rw [List.foldl_map]
    rw [hwe]
    exact le_foldl_max _ _ v hv

/-- Witness for `get_extracopy_window_min_max` at the one-symbol
environment whose sentinel stays below the symbol-derived end. -/
theorem get_extracopy_window_min_max_witness :
    ∃ ws we,
      (get_extracopy cSeg cPhdrs cEnvOneSymLowSent true).extra_vaddr = some ws ∧
      (get_extracopy cSeg cPhdrs cEnvOneSymLowSent true).extrasz = we - ws ∧
      ws ∈ (keptSyms cEnvOneSymLowSent 0x200 1 0x3000 0x5000).map ElfSym.st_value ∧
      (∀ v ∈ (keptSyms cEnvOneSymLowSent 0x200 1 0x3000 0x5000).map ElfSym.st_value, ws ≤ v) ∧
      we ∈ (keptSyms cEnvOneSymLowSent 0x200 1 0x3000 0x5000).map
        (fun x => x.st_value + x.st_size) ∧
      (∀ v ∈ (keptSyms cEnvOneSymLowSent 0x200 1 0x3000 0x5000).map
        (fun x => x.st_value + x.st_size), v ≤ we) :=
  get_extracopy_window_min_max cSeg cPhdrs cEnvOneSymLowSent 0x100 0x200 0x218 1
    0x3000 0x5000 (by decide) (by decide) (by decide) (by decide) (by decide)
    (by decide) (by decide) (by decide)

/-- C6: refuted as stated — at `cEnvOneSym` exactly one symbol is kept,
with byte range `[0x3100, 0x3180)`, yet the recorded copy window is
`[0x3100, 0x4000)`: the sentinel `__libhuge_filesz` at 0x4000 lies beyond
the symbol-derived end and extends the recorded end, so the window is not
exactly the union of the kept symbols' byte ranges. -/
theorem get_extracopy_sentinel_breaks_union :
    keptSyms cEnvOneSym 0x200 1 0x3000 0x5000 =
      [{ st_value := 0x3100, st_size := 0x80, st_info := 0x11 }] ∧
    find_dynamic cPhdrs cEnvOneSym.oobPhdr = some 0x100 ∧
    find_tables (cEnvOneSym.dynAt 0x100) = some (0x200, 0x218) ∧
    find_numsyms 0x200 0x218 = 1 ∧
    (get_extracopy cSeg cPhdrs cEnvOneSym true).extra_vaddr = some 0x3100 ∧
    (get_extracopy cSeg cPhdrs cEnvOneSym true).extrasz = 0xF00 ∧
    (0xF00 : Nat) ≠ 0x3180 - 0x3100 := by
  decide

/-- C7: refuted in its second half — at `cEnvNoKept` no ordinary symbol is
kept while the sentinel at 0x4000 lies beyond the loop's end value, yet no
copy window is recorded at all (`extra_vaddr` stays `NULL`, because
`found_sym` is never set), rather than a window starting at the beginning
of the zero-fill tail 0x3000. -/
theorem get_extracopy_no_syms_no_window :
    keptSyms cEnvNoKept 0x200 1 0x3000 0x5000 = [] ∧
    cEnvNoKept.libhuge_filesz = 0x4000 ∧
    symWinEnd 0x3000 (keptSyms cEnvNoKept 0x200 1 0x3000 0x5000) = 0x3000 ∧
    (get_extracopy cSeg cPhdrs cEnvNoKept true).extra_vaddr = none ∧
    (get_extracopy cSeg cPhdrs cEnvNoKept true).extra_vaddr ≠
      some (cSeg.vaddr + cSeg.filesz) := by
  decide

/-- C7 (amended): when the sentinel lies beyond the symbol-derived end,
the recorded window's end is extended to the sentinel's address — but a
window is recorded only when at least one ordinary symbol was kept; when
no ordinary symbol was kept, `found_sym` remains 0 and no window is
recorded at all, the internal adjustment of the start to the beginning of
the zero-fill tail notwithstanding. -/
theorem get_extracopy_sentinel_behavior (seg : SegInfo) (phdrs : List Phdr) (env : ElfEnv)
    (dt symtab strtab n so eo : Nat)
    (hso : so = seg.vaddr + seg.filesz) (heo : eo = seg.vaddr + seg.memsz)
    (hne : seg.filesz ≠ seg.memsz)
    (hfd : find_dynamic phdrs env.oobPhdr = some dt)
    (hft : find_tables (env.dynAt dt) = some (symtab, strtab))
    (hns : find_numsyms symtab strtab = (n : Int))
    (hsent : symWinEnd so (keptSyms env symtab n so eo) < env.libhuge_filesz) :
    (keptSyms env symtab n so eo = [] → get_extracopy seg phdrs env true = seg) ∧
    (keptSyms env symtab n so eo ≠ [] →
      (get_extracopy seg phdrs env true).extra_vaddr =
        some (if symWinStart eo (keptSyms env symtab n so eo) = eo then so
              else symWinStart eo (keptSyms env symtab n so eo)) ∧
      (get_extracopy seg phdrs env true).extrasz =
        env.libhuge_filesz -
          (if symWinStart eo (keptSyms env symtab n so eo) = eo then so
           else symWinStart eo (keptSyms env symtab n so eo))) := by
  subst hso heo
  have hres := get_extracopy_syms seg phdrs env dt symtab strtab n hne hfd hft hns
  set kept := keptSyms env symtab n (seg.vaddr + seg.filesz) (seg.vaddr + seg.memsz)
    with hkdef
  constructor
  · intro hke
    have hkeT : kept.isEmpty = true := by rw [hke]; rfl
    rw [hres]
    simp only [hkeT, if_true]
  · intro hkept
    have hkeF : kept.isEmpty = false := by
      cases hc : kept with
      | nil => exact absurd hc hkept
      | cons a l => rfl
    rw [hres]
    simp only [hkeF, Bool.false_eq_true, if_false, if_pos hsent]
    exact ⟨trivial, trivial⟩

/-- Witness for `get_extracopy_sentinel_behavior`: with one kept symbol
and the sentinel at 0x4000, the recorded window ends at the sentinel. -/
theorem get_extracopy_sentinel_behavior_witness :
    (get_extracopy cSeg cPhdrs cEnvOneSym true).extra_vaddr = some 0x3100 ∧
    (get_extracopy cSeg cPhdrs cEnvOneSym true).extrasz = 0x4000 - 0x3100 := by
  have h := get_extracopy_sentinel_behavior cSeg cPhdrs cEnvOneSym 0x100 0x200 0x218 1
    0x3000 0x5000 (by decide) (by decide) (by decide) (by decide) (by decide)
    (by decide) (by decide)
  have h2 := h.2 (by decide)
  constructor
  · rw [h2.1]
    decide
  · rw [h2.2]
    decide

/-- Counting lemma for `hugetlbCount` over a cons cell. -/
theorem hugetlbCount_cons (p : Phdr) (rest : List Phdr) :
    hugetlbCount (p :: rest) =
      hugetlbCount rest +
        (if (p.p_type == PT_LOAD && p.p_flags &&& PF_LINUX_HUGETLB != 0) then 1 else 0) := by
  unfold hugetlbCount
  rw [List.filter_cons]
  by_cases hb : (p.p_type == PT_LOAD && p.p_flags &&& PF_LINUX_HUGETLB != 0) = true
  · simp [hb]
  · simp [hb]

/-- Invariant of the `parse_elf` loop: when the descriptors recorded so far
together with the flagged headers still to come exceed the capacity, the
loop ends by zeroing the table. -/
theorem parse_elf_loop_overflow (phdrs0 : List Phdr) (env : ElfEnv) (mc : Bool) :
    ∀ (rest : List Phdr) (i : Nat) (acc : List SegInfo),
      acc.length ≤ MAX_HTLB_SEGS →
      MAX_HTLB_SEGS < acc.length + hugetlbCount rest →
      parse_elf_loop phdrs0 env mc rest i acc = [] := by
  intro rest
  induction rest with
  | nil =>
    intro i acc h1 h2
    unfold hugetlbCount at h2
    simp at h2
    omega
  | cons p rest ih =>
    intro i acc h1 h2
    rw [hugetlbCount_cons] at h2
    unfold parse_elf_loop
    by_cases ht : p.p_type ≠ PT_LOAD
    · rw [if_pos ht]
      apply ih (i+1) acc h1
      have hb : (p.p_type == PT_LOAD && p.p_flags &&& PF_LINUX_HUGETLB != 0) = false := by
        have : (p.p_type == PT_LOAD) = false := by
          simp [ht]
        simp [this]
      rw [hb] at h2
      simpa using h2
    · rw [if_neg ht]
      push_neg at ht
      by_cases hf : p.p_flags &&& PF_LINUX_HUGETLB = 0
      · rw [if_pos hf]
        apply ih (i+1) acc h1
        have hb : (p.p_type == PT_LOAD && p.p_flags &&& PF_LINUX_HUGETLB != 0) = false := by
          simp [hf]
        rw [hb] at h2
        simpa using h2
      · rw [if_neg hf]
        by_cases hlen : MAX_HTLB_SEGS ≤ acc.length
        · rw [if_pos hlen]
        · rw [if_neg hlen]
          have hb : (p.p_type == PT_LOAD && p.p_flags &&& PF_LINUX_HUGETLB != 0) = true := by
            simp [ht, hf]
          rw [hb] at h2
          norm_num at h2
          apply ih (i+1)
          · simp only [List.length_append, List.length_cons, List.length_nil]
            omega
          · simp only [List.length_append, List.length_cons, List.length_nil]
            omega

/-- C2: for every ELF image in which `parse_elf` discovers more segments
flagged for huge-page promotion than `MAX_HTLB_SEGS = 2`, the resulting
descriptor count is zero — no subset of the first N is promoted — and
`setup_elflink` treats this as nothing to promote and returns normally
(its trace stops right after the scan, with no remap). -/
theorem parse_elf_too_many_segs (cfg : Config) (phdrs : List Phdr) (env : ElfEnv)
    (h : MAX_HTLB_SEGS < hugetlbCount phdrs) :
    parse_elf phdrs env cfg.minimalCopy = [] ∧
    SEv.remap ∉ setup_elflink cfg phdrs env ∧
    (cfg.ehdrFound = true → cfg.checkEnvOk = true →
      setup_elflink cfg phdrs env = [SEv.parsed 0]) := by
  have hp : parse_elf phdrs env cfg.minimalCopy = [] := by
    unfold parse_elf
    apply parse_elf_loop_overflow phdrs env cfg.minimalCopy phdrs 0 []
    · simp [MAX_HTLB_SEGS]
    · simpa using h
  refine ⟨hp, ?_, ?_⟩
  · unfold setup_elflink
    cases cE : cfg.ehdrFound
    · simp
    · cases cC : cfg.checkEnvOk
      · simp
      · simp [hp]
  · intro hE hC
    unfold setup_elflink
    simp [hE, hC, hp]

/-- Witness for `parse_elf_too_many_segs`: three flagged headers against a
capacity of two. -/
theorem parse_elf_too_many_segs_witness :
    parse_elf [hugePhdr, hugePhdr, hugePhdr] cEnvTrivial cCfgAllOk.minimalCopy = [] ∧
    SEv.remap ∉ setup_elflink cCfgAllOk [hugePhdr, hugePhdr, hugePhdr] cEnvTrivial := by
  have h := parse_elf_too_many_segs cCfgAllOk [hugePhdr, hugePhdr, hugePhdr] cEnvTrivial
    (by decide)
  exact ⟨h.1, h.2.1⟩

/-- The preparation loop reports success exactly when every descriptor in
its range was prepared. -/
theorem obtainLoop_true_iff (ok : Nat → Bool) :
    ∀ (k i : Nat), (obtainLoop ok i k).2 = true ↔ ∀ j, j < k → ok (i + j) = true := by
  intro k
  induction k with
  | zero => intro i; simp [obtainLoop]
  | succ k ih =>
    intro i
    unfold obtainLoop
    by_cases h : ok i = true
    · rw [if_pos h]
      simp only []
      rw [ih (i+1)]
      constructor
      · intro hall j hj
        cases j with
        | zero => simpa using h
        | succ j =>
          have hh := hall j (by omega)
          rw [show i + (j+1) = i + 1 + j from by omega]
          exact hh
      · intro hall j hj
        have hh := hall (j+1) (by omega)
        rw [show i + 1 + j = i + (j+1) from by omega]
        exact hh
    · rw [if_neg h]
      simp only []
      constructor
      · intro hff
        exact absurd hff (by simp)
      · intro hall
        exact absurd (by simpa using hall 0 (by omega)) h

/-- On a fully successful preparation loop, every per-descriptor success
event is in the loop's trace. -/
theorem obtainLoop_obtain_mem (ok : Nat → Bool) :
    ∀ (k i : Nat), (obtainLoop ok i k).2 = true →
      ∀ j, j < k → SEv.obtain (i + j) true ∈ (obtainLoop ok i k).1 := by
  intro k
  induction k with
  | zero => intro i h j hj; omega
  | succ k ih =>
    intro i h j hj
    by_cases hok : ok i = true
    · unfold obtainLoop at h ⊢
      rw [if_pos hok] at h ⊢
      simp only [] at h ⊢
      cases j with
      | zero => simp
      | succ j =>
        apply List.mem_cons_of_mem
        rw [show i + (j+1) = (i+1) + j from by omega]
        exact ih (i+1) h j (by omega)
    · exfalso
      unfold obtainLoop at h
      rw [if_neg hok] at h
      simp at h

/-- The preparation loop never emits the remap event. -/
theorem obtainLoop_no_remap (ok : Nat → Bool) :
    ∀ (k i : Nat), SEv.remap ∉ (obtainLoop ok i k).1 := by
  intro k
  induction k with
  | zero => intro i; simp [obtainLoop]
  | succ k ih =>
    intro i
    unfold obtainLoop
    by_cases h : ok i = true
    · rw [if_pos h]
      simp only []
      intro hmem
      rcases List.mem_cons.mp hmem with h1 | h1
      · simp at h1
      · exact ih (i+1) h1
    · rw [if_neg h]
      simp

/-- The remap event appears in `setup_tail` exactly when every descriptor
was prepared. -/
theorem setup_tail_remap (cfg : Config) (n : Nat) :
    SEv.remap ∈ setup_tail cfg n ↔ (obtainLoop cfg.obtainOk 0 n).2 = true := by
  unfold setup_tail
  simp only []
  constructor
  · intro h
    rcases List.mem_append.mp h with h | h
    · exact absurd h (obtainLoop_no_remap _ _ _)
    · by_cases hb : (obtainLoop cfg.obtainOk 0 n).2 = true
      · exact hb
      · rw [if_neg hb] at h
        cases h
  · intro hb
    apply List.mem_append.mpr
    right
    rw [if_pos hb]
    simp

/-- On full success, `setup_tail` records every per-descriptor success
event. -/
theorem setup_tail_obtain (cfg : Config) (n : Nat)
    (h : (obtainLoop cfg.obtainOk 0 n).2 = true) :
    ∀ i, i < n → SEv.obtain i true ∈ setup_tail cfg n := by
  intro i hi
  unfold setup_tail
  apply List.mem_append.mpr
  left
  have hh := obtainLoop_obtain_mem cfg.obtainOk n 0 h i hi
  simpa using hh

/-- The four shapes a `setup_elflink` trace can take: early return, empty
scan, failed share-directory step, or scan followed by the preparation
tail. -/
theorem setup_elflink_cases (cfg : Config) (phdrs : List Phdr) (env : ElfEnv) :
    setup_elflink cfg phdrs env = [] ∨
    setup_elflink cfg phdrs env = [SEv.parsed 0] ∨
    (∃ n, n = (parse_elf phdrs env cfg.minimalCopy).length ∧
      setup_elflink cfg phdrs env = [SEv.parsed n, SEv.sharePath false]) ∨
    (∃ n pre, n = (parse_elf phdrs env cfg.minimalCopy).length ∧
      (pre = [] ∨ pre = [SEv.sharePath true]) ∧
      setup_elflink cfg phdrs env = SEv.parsed n :: pre ++ setup_tail cfg n) := by
  unfold setup_elflink
  cases cE : cfg.ehdrFound
  · left; simp
  · cases cC : cfg.checkEnvOk
    · left; simp
    · by_cases h0 : (parse_elf phdrs env cfg.minimalCopy).length = 0
      · right; left; simp [h0]
      · by_cases hS : cfg.sharing = true
        · by_cases hP : find_or_create_share_path cfg.shareEnv ≠ 0
          · right; right; left
            exact ⟨_, rfl, by simp [h0, hS, hP]⟩
          · right; right; right
            exact ⟨_, [SEv.sharePath true], rfl, Or.inr rfl, by simp [h0, hS, hP]⟩
        · right; right; right
          have hS' : cfg.sharing = false := by
            cases hq : cfg.sharing
            · rfl
            · exact absurd hq hS
          exact ⟨_, [], rfl, Or.inl rfl, by simp [h0, hS']⟩

/-- C1: for every run of `setup_elflink`, the remap engine is invoked only
after every selected segment has a prepared backing file (the remap event
appears only when every `obtain_prepared_file` call succeeded, and each
success event for each descriptor is in the trace); if preparation of any
segment fails, the trace contains no remap event, so the address space is
never unmapped or remapped. -/
theorem setup_elflink_all_or_nothing (cfg : Config) (phdrs : List Phdr) (env : ElfEnv) :
    (SEv.remap ∈ setup_elflink cfg phdrs env →
      ∀ i, i < (parse_elf phdrs env cfg.minimalCopy).length →
        cfg.obtainOk i = true ∧ SEv.obtain i true ∈ setup_elflink cfg phdrs env) ∧
    ((∃ i, i < (parse_elf phdrs env cfg.minimalCopy).length ∧ cfg.obtainOk i = false) →
      SEv.remap ∉ setup_elflink cfg phdrs env) := by
  constructor
  · intro hmem i hi
    rcases setup_elflink_cases cfg phdrs env with hq | hq | ⟨n, hn, hq⟩ | ⟨n, pre, hn, hpre, hq⟩
    · rw [hq] at hmem; cases hmem
    · rw [hq] at hmem; simp at hmem
    · rw [hq] at hmem; simp at hmem
    · rw [hq] at hmem
      have hmem' : SEv.remap ∈ setup_tail cfg n := by
        rcases List.mem_cons.mp hmem with h | h
        · simp at h
        · rcases List.mem_append.mp h with h | h
          · rcases hpre with hp | hp <;> rw [hp] at h <;> simp at h
          · exact h
      have hok := (setup_tail_remap cfg n).mp hmem'
      have h1 : cfg.obtainOk i = true := by
        have hh := (obtainLoop_true_iff cfg.obtainOk n 0).mp hok i (by rw [hn]; exact hi)
        simpa using hh
      refine ⟨h1, ?_⟩
      rw [hq]
      apply List.mem_cons_of_mem
      apply List.mem_append.mpr
      right
      exact setup_tail_obtain cfg n hok i (by rw [hn]; exact hi)
  · rintro ⟨i, hi, hfalse⟩ hmem
    rcases setup_elflink_cases cfg phdrs env with hq | hq | ⟨n, hn, hq⟩ | ⟨n, pre, hn, hq2⟩
    · rw [hq] at hmem; cases hmem
    · rw [hq] at hmem; simp at hmem
    · rw [hq] at hmem; simp at hmem
    · obtain ⟨hpre, hq⟩ := hq2
      rw [hq] at hmem
      have hmem' : SEv.remap ∈ setup_tail cfg n := by
        rcases List.mem_cons.mp hmem with h | h
        · simp at h
        · rcases List.mem_append.mp h with h | h
          · rcases hpre with hp | hp <;> rw [hp] at h <;> simp at h
          · exact h
      have hok := (setup_tail_remap cfg n).mp hmem'
      have hh := (obtainLoop_true_iff cfg.obtainOk n 0).mp hok i (by rw [hn]; exact hi)
      simp at hh
      rw [hh] at hfalse
      cases hfalse

/-- Witness for `setup_elflink_all_or_nothing`: with two promotable
segments, a fully successful run records both success events, and a run in
which segment 1 fails never reaches the remap event. -/
theorem setup_elflink_all_or_nothing_witness :
    SEv.obtain 1 true ∈ setup_elflink cCfgAllOk [hugePhdr, hugePhdr] cEnvTrivial ∧
    SEv.remap ∉ setup_elflink cCfgObtainFail [hugePhdr, hugePhdr] cEnvTrivial := by
  constructor
  · exact ((setup_elflink_all_or_nothing cCfgAllOk [hugePhdr, hugePhdr] cEnvTrivial).1
      (by decide) 1 (by decide)).2
  · exact (setup_elflink_all_or_nothing cCfgObtainFail [hugePhdr, hugePhdr] cEnvTrivial).2
      ⟨1, by decide, by decide⟩

/-- C9: refuted as stated — with an explicit `HUGETLB_SHARE_PATH` override
that is on the huge-page filesystem, `find_or_create_share_path` succeeds
even though the directory is group/other-writable and owned by a different
user: the ownership and permission checks run only for the default
per-uid path, so the claimed validation does not happen for every way of
obtaining the directory. -/
theorem share_path_override_skips_checks :
    find_or_create_share_path cShareOverrideBad = 0 ∧
    cShareOverrideBad.envPath = true ∧
    cShareOverrideBad.st_mode &&& (S_IWGRP ||| S_IWOTH) ≠ 0 ∧
    cShareOverrideBad.st_uid ≠ cShareOverrideBad.uid := by
  decide

/-- C9 (amended): with an explicit share-path override only the
on-hugetlbfs check is performed (ownership and permission checks are
skipped); for the default per-uid path, the directory is created `0700` if
absent and validated to exist, be a directory, be owned by the current
user, and not be group- or other-writable; any detected violation returns
the error that — when sharing is enabled — makes `setup_elflink` return
before preparing or remapping anything, leaving the process on its
original mappings. -/
theorem find_or_create_share_path_checks (e : SharePathEnv) (cfg : Config)
    (phdrs : List Phdr) (env : ElfEnv) :
    (e.envPath = true → (find_or_create_share_path e = 0 ↔ e.envOnHugetlbfs = true)) ∧
    (e.envPath = false →
      (find_or_create_share_path e = 0 ↔
        ((e.mkdirRet = 0 ∨ e.mkdirErrno = EEXIST) ∧ e.lstatRet = 0 ∧ e.isDir = true ∧
         e.st_uid = e.uid ∧ e.st_mode &&& (S_IWGRP ||| S_IWOTH) = 0))) ∧
    (cfg.sharing = true → find_or_create_share_path cfg.shareEnv ≠ 0 →
      SEv.remap ∉ setup_elflink cfg phdrs env ∧
      (∀ i b, SEv.obtain i b ∉ setup_elflink cfg phdrs env)) := by
  refine ⟨?_, ?_, ?_⟩
  · intro hE
    unfold find_or_create_share_path
    rw [hE]
    cases cH : e.envOnHugetlbfs <;> simp
  · intro hE
    unfold find_or_create_share_path
    rw [hE]
    simp only [Bool.false_eq_true, if_false]
    split_ifs with h1 h2 h3 h4 h5 <;>
      constructor <;> intro hh <;> simp_all <;> omega
  · intro hS hP
    unfold setup_elflink
    cases cE : cfg.ehdrFound
    · exact ⟨by simp, by intro i b; simp⟩
    · cases cC : cfg.checkEnvOk
      · exact ⟨by simp, by intro i b; simp⟩
      · by_cases h0 : (parse_elf phdrs env cfg.minimalCopy).length = 0
        · exact ⟨by simp [h0], by intro i b; simp [h0]⟩
        · exact ⟨by simp [h0, hS, hP], by intro i b; simp [h0, hS, hP]⟩

/-- Witness for `find_or_create_share_path_checks`: the benign default
directory passes, and a failed share-path step stops the orchestrator
before any preparation. -/
theorem find_or_create_share_path_checks_witness :
    find_or_create_share_path cShareOk = 0 ∧
    SEv.remap ∉ setup_elflink cCfgShareFail [hugePhdr] cEnvTrivial := by
  constructor
  · exact ((find_or_create_share_path_checks cShareOk cCfgAllOk [] cEnvTrivial).2.1
      (by decide)).mpr ⟨Or.inl (by decide), by decide, by decide, by decide, by decide⟩
  · exact ((find_or_create_share_path_checks cCfgShareFail.shareEnv cCfgShareFail
      [hugePhdr] cEnvTrivial).2.2 (by decide) (by decide)).1

/-- The abort path always ends with the self-signal. -/
theorem kill_mem_unmapped_abort (toks : List FmtTok) :
    Ev.kill SIGABRT ∈ unmapped_abort toks := by
  unfold unmapped_abort
  apply List.mem_append.mpr
  right
  simp

/-- The remap loop aborts whenever some segment's fixed-address mapping
fails or lands away from the segment's base: the result is `aborted` and
the trace ends in an `unmapped_abort` run. -/
theorem remapLoop_abort (mm : Nat → Option Nat) (hpage errno : Nat) :
    ∀ (segs : List SegInfo) (i0 : Nat),
      (∃ j, j < segs.length ∧ mm (i0 + j) ≠ some ((segs.getD j seg0).vaddr)) →
      (remapLoop mm hpage errno segs i0).2 = RemapResult.aborted ∧
      ∃ pre toks, (remapLoop mm hpage errno segs i0).1 = pre ++ unmapped_abort toks := by
  intro segs
  induction segs with
  | nil =>
    rintro i0 ⟨j, hj, _⟩
    simp at hj
  | cons s rest ih =>
    rintro i0 ⟨j, hj, hne⟩
    cases hmm : mm i0 with
    | none =>
      have hloop : remapLoop mm hpage errno (s :: rest) i0 =
          ([Ev.mmapFixedEv i0 none] ++
             unmapped_abort (mapFailMsg i0 s.vaddr (s.vaddr + align_up s.memsz hpage) errno),
           RemapResult.aborted) := by
        unfold remapLoop
        simp only [hmm]
      rw [hloop]
      exact ⟨rfl, [Ev.mmapFixedEv i0 none],
        mapFailMsg i0 s.vaddr (s.vaddr + align_up s.memsz hpage) errno, rfl⟩
    | some p =>
      by_cases hp : p = s.vaddr
      · subst hp
        have hloop : remapLoop mm hpage errno (s :: rest) i0 =
            (Ev.mmapFixedEv i0 (some s.vaddr) :: (remapLoop mm hpage errno rest (i0+1)).1,
             (remapLoop mm hpage errno rest (i0+1)).2) := by
          conv_lhs => unfold remapLoop
          simp only [hmm, if_true, eq_self_iff_true]
        have hrest : ∃ j', j' < rest.length ∧
            mm ((i0+1) + j') ≠ some ((rest.getD j' seg0).vaddr) := by
          cases j with
          | zero =>
            exfalso
            apply hne
            simpa using hmm
          | succ j =>
            refine ⟨j, by simpa using hj, ?_⟩
            rw [show i0 + 1 + j = i0 + (j+1) from by omega]
            simpa using hne
        obtain ⟨h2, pre, toks, htr⟩ := ih (i0+1) hrest
        rw [hloop]
        refine ⟨h2, Ev.mmapFixedEv i0 (some s.vaddr) :: pre, toks, ?_⟩
        simp only []
        rw [htr]
        rfl
      · have hloop : remapLoop mm hpage errno (s :: rest) i0 =
            (Ev.mmapFixedEv i0 (some p) ::
               unmapped_abort (wrongAddrMsg i0 s.vaddr (s.vaddr + align_up s.memsz hpage) p),
             RemapResult.aborted) := by
          unfold remapLoop
          simp only [hmm]
          rw [if_neg hp]
        rw [hloop]
        exact ⟨rfl, [Ev.mmapFixedEv i0 (some p)],
          wrongAddrMsg i0 s.vaddr (s.vaddr + align_up s.memsz hpage) p, rfl⟩

/-- C3: in `remap_segments`, if for some segment the fixed-address
huge-page `mmap` fails or returns an address different from the segment's
original base, the process is terminated abnormally via the unmapped-safe
abort path — the trace ends in an `unmapped_abort` run (raw-syscall writes
followed by the `SIGABRT` self-signal) — and the engine never returns to
its caller (the result is `aborted`, not `ok`). -/
theorem remap_segments_fatal_abort (segs : List SegInfo) (mm : Nat → Option Nat)
    (hpage errno : Nat)
    (h : ∃ j, j < segs.length ∧ mm j ≠ some ((segs.getD j seg0).vaddr)) :
    (remap_segments segs mm hpage errno).2 = RemapResult.aborted ∧
    Ev.kill SIGABRT ∈ (remap_segments segs mm hpage errno).1 ∧
    ∃ pre toks, (remap_segments segs mm hpage errno).1 = pre ++ unmapped_abort toks := by
  have h0 : ∃ j, j < segs.length ∧ mm (0 + j) ≠ some ((segs.getD j seg0).vaddr) := by
    obtain ⟨j, hj, hne⟩ := h
    exact ⟨j, hj, by simpa using hne⟩
  obtain ⟨h2, pre, toks, htr⟩ := remapLoop_abort mm hpage errno segs 0 h0
  unfold remap_segments
  refine ⟨h2, ?_, ?_⟩
  · simp only []
    apply List.mem_cons_of_mem
    apply List.mem_append.mpr
    right
    rw [htr]
    apply List.mem_append.mpr
    right
    exact kill_mem_unmapped_abort toks
  · refine ⟨Ev.bogusMmap :: ((segs.map fun s => Ev.munmapEv s.vaddr s.memsz) ++ pre),
      toks, ?_⟩
    simp only []
    rw [htr, ← List.append_assoc]
    rfl

/-- Witness for `remap_segments_fatal_abort`: one segment whose mapping
lands at the wrong address. -/
theorem remap_segments_fatal_abort_witness :
    (remap_segments [cRemapSeg] (fun _ => some 0x2000) 0x200000 12).2 =
      RemapResult.aborted ∧
    Ev.kill SIGABRT ∈ (remap_segments [cRemapSeg] (fun _ => some 0x2000) 0x200000 12).1 := by
  have h := remap_segments_fatal_abort [cRemapSeg] (fun _ => some 0x2000) 0x200000 12
    ⟨0, by decide, by decide⟩
  exact ⟨h.1, h.2.1⟩

/-- The failure cleanup never performs a rename. -/
theorem renameTmp_not_mem_failCleanup (r : IterR) (b : Bool) :
    FEv.renameTmp b ∉ failCleanup r := by
  unfold failCleanup
  intro h
  rcases List.mem_append.mp h with h | h <;> split_ifs at h <;> simp at h

/-- One preparer iteration of the retry loop, written out: with the final
open failed and the exclusive create succeeded, the iteration finishes
without recursing, and its trace and return value depend only on the
materializer and rename outcomes. -/
theorem fopsLoop_preparer (e : ShareEnv) (fuel k : Nat)
    (hfds : (e.iter k).fds < 0) (hfdx : 0 ≤ (e.iter k).fdx) :
    fopsLoop e (fuel+1) k =
      (if e.prepOk k then
        (if e.renameOk k then
          some ([FEv.openTmp k (e.iter k).fdx, FEv.openFinal k (e.iter k).fds] ++
                [FEv.setFd (e.iter k).fdx, FEv.prepare true, FEv.renameTmp true], 0)
         else
          some ([FEv.openTmp k (e.iter k).fdx, FEv.openFinal k (e.iter k).fds] ++
                [FEv.setFd (e.iter k).fdx, FEv.prepare true, FEv.renameTmp false] ++
                failCleanup (e.iter k), -1))
       else
        some ([FEv.openTmp k (e.iter k).fdx, FEv.openFinal k (e.iter k).fds] ++
              [FEv.setFd (e.iter k).fdx, FEv.prepare false] ++ failCleanup (e.iter k), -1)) := by
  simp only [fopsLoop]
  rw [if_neg (not_le.mpr hfds), if_pos hfdx]

/-- C8 (amended): when this process becomes the preparer (exclusive create
of the temporary file succeeds, the final file is absent), a rename is
executed only after the materializer has returned success, immediately
following the successful prepare step; if the materializer or the rename
fails, the process reports failure for the segment and — when the
temporary descriptor is strictly positive — unlinks its temporary file and
closes the descriptor (the cleanup tests use `fdx > 0`, so a temporary
descriptor equal to 0 is not cleaned up). -/
theorem find_or_prepare_preparer_protocol (e : ShareEnv) (fuel k : Nat)
    (tr : List FEv) (ret : Int)
    (hfds : (e.iter k).fds < 0) (hfdx : 0 ≤ (e.iter k).fdx)
    (hrun : fopsLoop e (fuel+1) k = some (tr, ret)) :
    (∀ b, FEv.renameTmp b ∈ tr →
      e.prepOk k = true ∧
      ∃ pre post, tr = pre ++ FEv.prepare true :: FEv.renameTmp b :: post) ∧
    ((e.prepOk k = false ∨ e.renameOk k = false) →
      ret = -1 ∧ (0 < (e.iter k).fdx →
        FEv.unlinkTmp ∈ tr ∧ FEv.closeFd (e.iter k).fdx ∈ tr)) ∧
    (e.prepOk k = true → e.renameOk k = true →
      ret = 0 ∧ FEv.prepare true ∈ tr ∧ FEv.renameTmp true ∈ tr) := by
  have hstep := fopsLoop_preparer e fuel k hfds hfdx
  have hnofds : ¬ ((e.iter k).fds > 0) := by omega
  by_cases hprep : e.prepOk k = true
  · by_cases hren : e.renameOk k = true
    · rw [if_pos hprep, if_pos hren, hrun] at hstep
      have hpair := Option.some_inj.mp hstep
      have htr : tr = [FEv.openTmp k (e.iter k).fdx, FEv.openFinal k (e.iter k).fds] ++
          [FEv.setFd (e.iter k).fdx, FEv.prepare true, FEv.renameTmp true] :=
        congrArg Prod.fst hpair
      have hret : ret = 0 := congrArg Prod.snd hpair
      subst htr
      subst hret
      refine ⟨?_, ?_, ?_⟩
      · intro b hb
        have hbt : b = true := by
          simp at hb
          exact hb
        subst hbt
        exact ⟨hprep, [FEv.openTmp k (e.iter k).fdx, FEv.openFinal k (e.iter k).fds,
          FEv.setFd (e.iter k).fdx], [], by simp⟩
      · intro hor
        rcases hor with h | h
        · rw [hprep] at h; cases h
        · rw [hren] at h; cases h
      · intro _ _
        exact ⟨rfl, by simp, by simp⟩
    · have hrenF : e.renameOk k = false := by
        cases hq : e.renameOk k
        · rfl
        · exact absurd hq hren
      rw [if_pos hprep, if_neg (by rw [hrenF]; simp : ¬ (e.renameOk k) = true), hrun] at hstep
      have hpair := Option.some_inj.mp hstep
      have htr : tr = [FEv.openTmp k (e.iter k).fdx, FEv.openFinal k (e.iter k).fds] ++
          [FEv.setFd (e.iter k).fdx, FEv.prepare true, FEv.renameTmp false] ++
          failCleanup (e.iter k) :=
        congrArg Prod.fst hpair
      have hret : ret = -1 := congrArg Prod.snd hpair
      subst htr
      subst hret
      refine ⟨?_, ?_, ?_⟩
      · intro b hb
        have hbf : b = false := by
          rcases List.mem_append.mp hb with h | h
          · simp at h
            exact h
          · exact absurd h (renameTmp_not_mem_failCleanup _ b)
        subst hbf
        refine ⟨hprep, [FEv.openTmp k (e.iter k).fdx, FEv.openFinal k (e.iter k).fds,
          FEv.setFd (e.iter k).fdx], failCleanup (e.iter k), by simp⟩
      · intro _
        refine ⟨rfl, ?_⟩
        intro hpos
        have hfc : failCleanup (e.iter k) = [FEv.unlinkTmp, FEv.closeFd (e.iter k).fdx] := by
          unfold failCleanup
          rw [if_pos hpos, if_neg hnofds]
          simp
        constructor
        · apply List.mem_append.mpr
          right
          rw [hfc]
          simp
        · apply List.mem_append.mpr
          right
          rw [hfc]
          simp
      · intro _ hq
        rw [hrenF] at hq
        cases hq
  · have hprepF : e.prepOk k = false := by
      cases hq : e.prepOk k
      · rfl
      · exact absurd hq hprep
    rw [if_neg (by rw [hprepF]; simp : ¬ (e.prepOk k) = true), hrun] at hstep
    have hpair := Option.some_inj.mp hstep
    have htr : tr = [FEv.openTmp k (e.iter k).fdx, FEv.openFinal k (e.iter k).fds] ++
        [FEv.setFd (e.iter k).fdx, FEv.prepare false] ++ failCleanup (e.iter k) :=
      congrArg Prod.fst hpair
    have hret : ret = -1 := congrArg Prod.snd hpair
    subst htr
    subst hret
    refine ⟨?_, ?_, ?_⟩
    · intro b hb
      exfalso
      rcases List.mem_append.mp hb with h | h
      · simp at h
      · exact renameTmp_not_mem_failCleanup _ b h
    · intro _
      refine ⟨rfl, ?_⟩
      intro hpos
      have hfc : failCleanup (e.iter k) = [FEv.unlinkTmp, FEv.closeFd (e.iter k).fdx] := by
        unfold failCleanup
        rw [if_pos hpos, if_neg hnofds]
        simp
      constructor
      · apply List.mem_append.mpr
        right
        rw [hfc]
        simp
      · apply List.mem_append.mpr
        right
        rw [hfc]
        simp
    · intro hq _
      rw [hprepF] at hq
      cases hq

/-- Witness for `find_or_prepare_preparer_protocol`: a preparer with
descriptor 3 whose materializer fails does unlink its temporary file. -/
theorem find_or_prepare_preparer_protocol_witness :
    FEv.unlinkTmp ∈ [FEv.openTmp 0 3, FEv.openFinal 0 (-1), FEv.setFd 3,
      FEv.prepare false, FEv.unlinkTmp, FEv.closeFd 3] := by
  have h := find_or_prepare_preparer_protocol cShareFd3PrepFail 0 0
    [FEv.openTmp 0 3, FEv.openFinal 0 (-1), FEv.setFd 3, FEv.prepare false,
     FEv.unlinkTmp, FEv.closeFd 3] (-1) (by decide) (by decide) (by decide)
  exact ((h.2.1 (Or.inl (by decide))).2 (by decide)).1

/-- C8: refuted in its cleanup clause — with the exclusive create
returning descriptor 0 (a successful open) and the final open failing with
`ENOENT`, a failing materializer produces a failure return with no unlink
and no close: the cleanup is guarded by the strict test `fdx > 0`. -/
theorem shared_file_fd_zero_no_cleanup :
    find_or_prepare_shared_file cShareFdZero 1 =
      some ([FEv.openTmp 0 0, FEv.openFinal 0 (-1), FEv.setFd 0, FEv.prepare false], -1) ∧
    FEv.unlinkTmp ∉ [FEv.openTmp 0 0, FEv.openFinal 0 (-1), FEv.setFd 0, FEv.prepare false] ∧
    FEv.closeFd 0 ∉ [FEv.openTmp 0 0, FEv.openFinal 0 (-1), FEv.setFd 0, FEv.prepare false] ∧
    (cShareFdZero.iter 0).fdx = 0 ∧ (cShareFdZero.prepOk 0) = false := by
  decide
